import Mathlib

/-!
Verification of the SmartPatch basestation software (Python) against its
natural-language specification.  The Python modules `Basestation/Mapping.py`,
`Basestation/Ble.py` and `Basestation/DataProcessing.py` are shallowly
embedded below: Python dicts become association lists with unique keys,
byte strings become lists of naturals below 256, and float arithmetic is
modelled exactly over the rationals.
-/

namespace SmartPatch

/-! ## Python dict model

A Python dict is an insertion-ordered association list with unique keys.
`dinsert` models `d[k] = v` (in-place update when the key exists, append
otherwise), `dpop` models `del d[k]` / `d.pop(k)`, `dlookup` models `d[k]`.
-/

def dlookup {α : Type} : List (String × α) → String → Option α
  | [], _ => none
  | p :: rest, k => if p.1 = k then some p.2 else dlookup rest k

def containsKey {α : Type} (d : List (String × α)) (k : String) : Bool :=
  d.any (fun p => p.1 = k)

def dinsert {α : Type} (d : List (String × α)) (k : String) (v : α) :
    List (String × α) :=
  if containsKey d k then d.map (fun p => if p.1 = k then (k, v) else p)
  else d ++ [(k, v)]

def dpop {α : Type} (d : List (String × α)) (k : String) : List (String × α) :=
  d.filter (fun p => p.1 ≠ k)

theorem dlookup_replace_self {α : Type} (d : List (String × α)) (k : String) (v : α)
    (h : containsKey d k = true) :
    dlookup (d.map (fun p => if p.1 = k then (k, v) else p)) k = some v := by
  induction d with
  | nil => simp [containsKey] at h
  | cons q rest ih =>
    by_cases hq : q.1 = k
    · simp [dlookup, hq]
    · have hrest : containsKey rest k = true := by
        simp only [containsKey, List.any_cons, Bool.or_eq_true, decide_eq_true_eq] at h
        rcases h with h | h
        · exact absurd h hq
        · exact h
      simp [dlookup, hq, ih hrest]

theorem dlookup_replace_ne {α : Type} (d : List (String × α)) (k k' : String) (v : α)
    (hne : k' ≠ k) :
    dlookup (d.map (fun p => if p.1 = k then (k, v) else p)) k' = dlookup d k' := by
  induction d with
  | nil => simp [dlookup]
  | cons q rest ih =>
    by_cases hq : q.1 = k
    · have h1 : ¬ k = k' := fun hc => hne hc.symm
      have h2 : ¬ q.1 = k' := by rw [hq]; exact h1
      simp [dlookup, hq, h1, h2, ih]
    · by_cases hq' : q.1 = k'
      · simp [dlookup, hq, hq', hne]
      · simp [dlookup, hq, hq', ih]

theorem dlookup_append_single_self {α : Type} (d : List (String × α)) (k : String)
    (v : α) (h : containsKey d k = false) :
    dlookup (d ++ [(k, v)]) k = some v := by
  induction d with
  | nil => simp [dlookup]
  | cons q rest ih =>
    simp only [containsKey, List.any_cons, Bool.or_eq_false_iff, decide_eq_false_iff_not] at h
    simp only [List.cons_append, dlookup, if_neg h.1]
    exact ih (by simpa [containsKey] using h.2)

theorem dlookup_append_single_ne {α : Type} (d : List (String × α)) (k k' : String)
    (v : α) (hne : k' ≠ k) :
    dlookup (d ++ [(k, v)]) k' = dlookup d k' := by
  induction d with
  | nil =>
    have : ¬ k = k' := fun hc => hne hc.symm
    simp [dlookup, this]
  | cons q rest ih =>
    by_cases hq : q.1 = k'
    · simp [dlookup, hq]
    · simp [dlookup, hq, ih]

theorem dlookup_dinsert_self {α : Type} (d : List (String × α)) (k : String) (v : α) :
    dlookup (dinsert d k v) k = some v := by
  unfold dinsert
  by_cases h : containsKey d k
  · simp only [h, if_true]
    exact dlookup_replace_self d k v h
  · simp only [h, if_false, Bool.false_eq_true]
    exact dlookup_append_single_self d k v (by simpa using h)

theorem dlookup_dinsert_ne {α : Type} (d : List (String × α)) (k k' : String) (v : α)
    (hne : k' ≠ k) : dlookup (dinsert d k v) k' = dlookup d k' := by
  unfold dinsert
  by_cases h : containsKey d k
  · simp only [h, if_true]
    exact dlookup_replace_ne d k k' v hne
  · simp only [h, if_false, Bool.false_eq_true]
    exact dlookup_append_single_ne d k k' v hne

theorem dlookup_dpop {α : Type} (d : List (String × α)) (k a : String) :
    dlookup (dpop d k) a = if a = k then none else dlookup d a := by
  induction d with
  | nil => simp [dpop, dlookup]
  | cons q rest ih =>
    unfold dpop at ih ⊢
    rw [List.filter_cons]
    by_cases hq : q.1 = k
    · have hqd : (decide (q.1 ≠ k)) = false := by simp [hq]
      rw [hqd]
      by_cases ha : a = k
      · simpa [ha] using ih
      · have hqa : ¬ q.1 = a := by rw [hq]; exact fun hc => ha hc.symm
        simp only [dlookup, if_neg hqa, ih, ha, if_false]
        rw [if_neg ha] at ih
        exact ih.symm ▸ rfl
    · have hqd : (decide (q.1 ≠ k)) = true := by simp [hq]
      rw [hqd]
      by_cases hqa : q.1 = a
      · have ha : ¬ a = k := fun hc => hq (hqa.symm ▸ hc)
        simp [dlookup, hqa, ha]
      · simp only [dlookup, if_neg hqa, ih]

theorem mem_of_mem_foldl_dpop {α : Type} (l : List String) (d : List (String × α))
    (p : String × α) (hp : p ∈ l.foldl dpop d) : p ∈ d := by
  induction l generalizing d with
  | nil => simpa using hp
  | cons x xs ih =>
    have h1 : p ∈ dpop d x := ih (dpop d x) hp
    exact List.mem_of_mem_filter h1

theorem dlookup_foldl_dpop {α : Type} (l : List String) (d : List (String × α))
    (a : String) :
    dlookup (l.foldl dpop d) a = if a ∈ l then none else dlookup d a := by
  induction l generalizing d with
  | nil => simp
  | cons x xs ih =>
    simp only [List.foldl_cons]
    rw [ih]
    by_cases hx : a = x
    · simp [hx, dlookup_dpop]
    · by_cases hxs : a ∈ xs
      · simp [hxs, hx]
      · simp [hxs, hx, dlookup_dpop]

theorem dlookup_foldl_dinsert_const {α : Type} (l : List String)
    (d : List (String × α)) (c : α) (a : String) :
    dlookup (l.foldl (fun m x => dinsert m x c) d) a =
      if a ∈ l then some c else dlookup d a := by
  induction l generalizing d with
  | nil => simp
  | cons x xs ih =>
    simp only [List.foldl_cons]
    rw [ih]
    by_cases hxs : a ∈ xs
    · simp [hxs]
    · by_cases hx : a = x
      · simp [hxs, hx, dlookup_dinsert_self]
      · simp [hxs, hx, dlookup_dinsert_ne _ _ _ _ hx]

/-! ## Mapping.py : `connect_update`

`connect_update(patient_name, mac_address)` (Mapping.py, lines 187-216).
The Python function mutates the two global dicts `Globals.patient_mapping`
and `Globals.mac_address_update`; here both are passed and returned
explicitly.  Inside the deletion loop `patient_mapping` only receives
`pop`s and `mac_address_update` only receives assignments, so the
interleaved loop is split into two folds over the same `to_delete` list.
-/

def connect_update (patient_name mac_address : String)
    (patient_mapping mac_address_update : List (String × String)) :
    List (String × String) × List (String × String) :=
  let step1 :=
    if patient_name ∈ patient_mapping.map Prod.snd then
      let to_delete :=
        (patient_mapping.filter (fun p => p.2 = patient_name)).map Prod.fst
      (to_delete.foldl dpop patient_mapping,
       to_delete.foldl (fun m a => dinsert m a ("remove")) mac_address_update)
    else (patient_mapping, mac_address_update)
  (dinsert step1.1 mac_address patient_name,
   dinsert step1.2 mac_address ("add"))

theorem mem_of_dlookup_eq_some {α : Type} (d : List (String × α)) (a : String) (v : α)
    (h : dlookup d a = some v) : (a, v) ∈ d := by
  induction d with
  | nil => simp [dlookup] at h
  | cons q rest ih =>
    by_cases hq : q.1 = a
    · simp only [dlookup, if_pos hq, Option.some.injEq] at h
      have : (a, v) = q := by
        rw [← hq, ← h]
      simp [this]
    · simp only [dlookup, if_neg hq] at h
      exact List.mem_cons_of_mem _ (ih h)

theorem mem_foldl_dpop_iff {α : Type} (l : List String) (d : List (String × α))
    (p : String × α) : p ∈ l.foldl dpop d ↔ p ∈ d ∧ p.1 ∉ l := by
  induction l generalizing d with
  | nil => simp
  | cons x xs ih =>
    simp only [List.foldl_cons, ih, dpop, List.mem_filter, decide_eq_true_eq,
      List.mem_cons]
    constructor
    · rintro ⟨⟨h1, h2⟩, h3⟩
      exact ⟨h1, by rintro (hc | hc) <;> [exact h2 hc; exact h3 hc]⟩
    · rintro ⟨h1, h2⟩
      exact ⟨⟨h1, fun hc => h2 (Or.inl hc)⟩, fun hc => h2 (Or.inr hc)⟩

theorem foldl_dpop_sublist {α : Type} (l : List String) (d : List (String × α)) :
    (l.foldl dpop d).Sublist d := by
  induction l generalizing d with
  | nil => simp
  | cons x xs ih =>
    simp only [List.foldl_cons]
    exact (ih (dpop d x)).trans (List.filter_sublist d)

theorem count_dinsert_fresh {α : Type} [DecidableEq α] (d : List (String × α))
    (k : String) (v : α) (hnd : (d.map Prod.fst).Nodup)
    (hfresh : ∀ p ∈ d, p.2 ≠ v) :
    ((dinsert d k v).filter (fun p => p.2 = v)).length = 1 := by
  unfold dinsert
  by_cases h : containsKey d k
  · simp only [h, if_true]
    induction d with
    | nil => simp [containsKey] at h
    | cons q rest ih =>
      simp only [List.map_cons, List.filter_cons]
      by_cases hq : q.1 = k
      · have hkmem : k ∉ rest.map Prod.fst := by
          simp only [List.map_cons, List.nodup_cons] at hnd
          rw [← hq]
          exact hnd.1
        have hrest : ((rest.map (fun p => if p.1 = k then (k, v) else p)).filter
            (fun p => p.2 = v)).length = 0 := by
          rw [List.length_eq_zero, List.filter_eq_nil_iff]
          intro b hb
          obtain ⟨p, hp, hpb⟩ := List.mem_map.mp hb
          have hpk : ¬ p.1 = k := fun hc => hkmem (hc ▸ List.mem_map_of_mem Prod.fst hp)
          rw [if_neg hpk] at hpb
          subst hpb
          simpa using hfresh p (List.mem_cons_of_mem _ hp)
        simp only [if_pos hq]
        simp [hrest]
      · have hq2 : ¬ q.2 = v := hfresh q (List.mem_cons_self _ _)
        simp only [if_neg hq, decide_eq_true_eq, if_neg hq2]
        apply ih
        · simp only [List.map_cons, List.nodup_cons] at hnd
          exact hnd.2
        · intro p hp
          exact hfresh p (List.mem_cons_of_mem _ hp)
        · simp only [containsKey, List.any_cons, Bool.or_eq_true,
            decide_eq_true_eq] at h
          rcases h with h | h
          · exact absurd h hq
          · exact h
  · simp only [h, if_false, Bool.false_eq_true, List.filter_append]
    have h1 : d.filter (fun p => p.2 = v) = [] := by
      rw [List.filter_eq_nil_iff]
      intro p hp
      simpa using hfresh p hp
    simp [h1]

/-- Claim C1: for a `Connected` control-plane event `{patient_id, patch_id}` applied
to any patient mapping and mac-address-update state (with unique dict keys),
`connect_update` removes every existing patient-mapping entry whose value is the
patient, marking each removed patch address with the `remove` intent, then binds
the new patch address to the patient with the `add` intent; afterwards the patient
mapping holds exactly one entry whose value is that patient. -/
theorem connect_update_correct (patient_name mac_address : String)
    (pm mu : List (String × String)) (hnd : (pm.map Prod.fst).Nodup) :
    dlookup (connect_update patient_name mac_address pm mu).1 mac_address =
      some patient_name ∧
    dlookup (connect_update patient_name mac_address pm mu).2 mac_address =
      some ("add") ∧
    (∀ a, a ≠ mac_address → dlookup pm a = some patient_name →
      dlookup (connect_update patient_name mac_address pm mu).1 a = none ∧
      dlookup (connect_update patient_name mac_address pm mu).2 a = some ("remove")) ∧
    ((connect_update patient_name mac_address pm mu).1.filter
      (fun p => p.2 = patient_name)).length = 1 := by
  unfold connect_update
  by_cases hmem : patient_name ∈ pm.map Prod.snd
  · simp only [hmem, if_true]
    refine ⟨dlookup_dinsert_self _ _ _, dlookup_dinsert_self _ _ _, ?_, ?_⟩
    · intro a ha hlook
      have hmem2 : (a, patient_name) ∈ pm := mem_of_dlookup_eq_some pm a patient_name hlook
      have hatd : a ∈ (pm.filter (fun p => p.2 = patient_name)).map Prod.fst :=
        List.mem_map.mpr ⟨(a, patient_name), List.mem_filter.mpr ⟨hmem2, by simp⟩, rfl⟩
      constructor
      · rw [dlookup_dinsert_ne _ _ _ _ ha, dlookup_foldl_dpop, if_pos hatd]
      · rw [dlookup_dinsert_ne _ _ _ _ ha, dlookup_foldl_dinsert_const, if_pos hatd]
    · apply count_dinsert_fresh
      · exact (List.Sublist.map Prod.fst (foldl_dpop_sublist _ pm)).nodup hnd
      · intro p hp hpv
        have h1 := (mem_foldl_dpop_iff _ pm p).mp hp
        apply h1.2
        exact List.mem_map.mpr ⟨p, List.mem_filter.mpr ⟨h1.1, by simp [hpv]⟩, rfl⟩
  · simp only [hmem, if_false]
    refine ⟨dlookup_dinsert_self _ _ _, dlookup_dinsert_self _ _ _, ?_, ?_⟩
    · intro a _ hlook
      exact absurd (List.mem_map.mpr
        ⟨(a, patient_name), mem_of_dlookup_eq_some pm a patient_name hlook, rfl⟩) hmem
    · apply count_dinsert_fresh _ _ _ hnd
      intro p hp hpv
      exact hmem (List.mem_map.mpr ⟨p, hp, hpv⟩)

/-- Witness for `connect_update_correct`: the patient-migration scenario of the
spec evaluated concretely (patient already bound to address AA, reconnecting on
address BB). -/
theorem connect_update_correct_witness :
    dlookup (connect_update ("P1") ("BB") [("AA", "P1"), ("CC", "P2")]
      [("CC", "add")]).1 ("BB") = some ("P1") ∧
    dlookup (connect_update ("P1") ("BB") [("AA", "P1"), ("CC", "P2")]
      [("CC", "add")]).2 ("BB") = some ("add") ∧
    (∀ a, a ≠ "BB" → dlookup [("AA", "P1"), ("CC", "P2")] a = some ("P1") →
      dlookup (connect_update ("P1") ("BB") [("AA", "P1"), ("CC", "P2")]
        [("CC", "add")]).1 a = none ∧
      dlookup (connect_update ("P1") ("BB") [("AA", "P1"), ("CC", "P2")]
        [("CC", "add")]).2 a = some ("remove")) ∧
    ((connect_update ("P1") ("BB") [("AA", "P1"), ("CC", "P2")]
      [("CC", "add")]).1.filter (fun p => p.2 = "P1")).length = 1 :=
  connect_update_correct ("P1") ("BB") [("AA", "P1"), ("CC", "P2")]
    [("CC", "add")] (by decide)

theorem dlookup_eq_none_of_not_containsKey {α : Type} (d : List (String × α))
    (k : String) (h : containsKey d k = false) : dlookup d k = none := by
  induction d with
  | nil => rfl
  | cons q rest ih =>
    simp only [containsKey, List.any_cons, Bool.or_eq_false_iff,
      decide_eq_false_iff_not] at h
    simp only [dlookup, if_neg h.1]
    exact ih (by simpa [containsKey] using h.2)

/-! ## Ble.py : connection state

`add_connected` (Ble.py, lines 233-252) inserts the firmware version read from
the device into `Globals.connected_devices`.  `disconnect` (Ble.py, lines
188-211) stops notifications and closes the link (external I/O, no shared
state), then deletes the patch's entry from `Globals.mac_address_update`.
-/

structure BleState where
  connected_devices : List (String × String)
  mac_address_update : List (String × String)
deriving DecidableEq

def add_connected (s : BleState) (address firmware_version : String) : BleState :=
  { s with connected_devices := dinsert s.connected_devices address firmware_version }

def disconnect (s : BleState) (address : String) : BleState :=
  { s with mac_address_update := dpop s.mac_address_update address }

/-- Claim C2 counterexample: after the disconnect flow completes for patch AA
(its remove request is deleted from `mac_address_update`), AA is still a key of
`connected_devices` — the disconnect flow never removes it. -/
theorem disconnect_keeps_connected_entry :
    containsKey (disconnect (BleState.mk [("AA", "1.0")] [("AA", "remove")])
      ("AA")).connected_devices ("AA") = true ∧
    (disconnect (BleState.mk [("AA", "1.0")] [("AA", "remove")])
      ("AA")).mac_address_update = [] := by
  exact ⟨rfl, rfl⟩

/-- Claim C2 (amended): `connected_devices` gains an entry when a worker
completes the connection handshake, but the disconnect flow only deletes the
patch's entry from `mac_address_update` and leaves `connected_devices`
untouched, so stale entries persist and its keys need not be connected. -/
theorem connected_devices_update (s : BleState) (address firmware_version : String) :
    dlookup (add_connected s address firmware_version).connected_devices address =
      some firmware_version ∧
    (∀ a, dlookup (disconnect s address).connected_devices a =
      dlookup s.connected_devices a) ∧
    dlookup (disconnect s address).mac_address_update address = none := by
  refine ⟨dlookup_dinsert_self _ _ _, fun a => rfl, ?_⟩
  simp [disconnect, dlookup_dpop]

/-! ## Ble.py : notification payload decoding

`notify_handles` and `bytes_per_int` are the literal dicts of Ble.py, lines
107-111, rendered as lookup functions (a missing key yields `none`, the
Python `KeyError`).  Bytes are naturals below 256; `int_from_bytes_le` models
Python's `int.from_bytes(..., byteorder='little', signed=...)` exactly
(two's complement on the byte width when signed).
-/

def notify_handles (sender : Nat) : Option String :=
  if sender = 2 then some ("imu")
  else if sender = 6 then some ("ppg")
  else if sender = 25 then some ("audio")
  else if sender = 29 then some ("voltage")
  else if sender = 32 then some ("current")
  else if sender = 41 then some ("temperature")
  else none

def bytes_per_int (char : String) : Option Nat :=
  if char = "imu" then some 2
  else if char = "audio" then some 2
  else if char = "ppg" then some 4
  else if char = "temperature" then some 4
  else if char = "voltage" then some 4
  else if char = "current" then some 4
  else none

def from_bytes_le : List Nat → Nat
  | [] => 0
  | b :: rest => b + 256 * from_bytes_le rest

def int_from_bytes_le (signed : Bool) (bs : List Nat) : Int :=
  if signed = true ∧ 2 ^ (8 * bs.length - 1) ≤ from_bytes_le bs then
    (from_bytes_le bs : Int) - 2 ^ (8 * bs.length)
  else (from_bytes_le bs : Int)

/-- `convert_data` (Ble.py, lines 129-149): the output list has
`len(data) // step` slots; slot `index` decodes the byte slice
`data[step * index : step * (index + 1)]`, signed exactly for ppg and imu. -/
def convert_data (char : String) (data : List Nat) : Option (List Int) :=
  (bytes_per_int char).map (fun step =>
    (List.range (data.length / step)).map (fun index =>
      int_from_bytes_le (if char = "ppg" ∨ char = "imu" then true else false)
        ((data.drop (step * index)).take step)))

/-- Splitting a list into consecutive groups of `w` elements (the reading of
"each consecutive width-byte group" in the spec). -/
def chunksOf {α : Type} (w : Nat) (l : List α) : List (List α) :=
  if h : w = 0 ∨ l.length = 0 then [] else l.take w :: chunksOf w (l.drop w)
termination_by l.length
decreasing_by
  simp only [not_or] at h
  rw [List.length_drop]
  have hw : 0 < w := Nat.pos_of_ne_zero h.1
  omega

theorem chunksOf_eq_range_map {α : Type} (step : Nat) (hstep : 0 < step) :
    ∀ (n : Nat) (data : List α), data.length = step * n →
      chunksOf step data =
        (List.range n).map (fun i => (data.drop (step * i)).take step) := by
  intro n
  induction n with
  | zero =>
    intro data hlen
    rw [chunksOf]
    simp only [Nat.mul_zero] at hlen
    simp [hlen]
  | succ m ih =>
    intro data hlen
    have hcond : ¬ (step = 0 ∨ data.length = 0) := by
      rw [hlen]
      push_neg
      have hpos : 0 < step * (m + 1) := Nat.mul_pos hstep (Nat.succ_pos m)
      omega
    rw [chunksOf, dif_neg hcond]
    have hdrop : (data.drop step).length = step * m := by
      rw [List.length_drop, hlen]
      ring_nf
      omega
    rw [ih (data.drop step) hdrop, List.range_succ_eq_map, List.map_cons]
    congr 1
    rw [List.map_map]
    apply List.map_congr_left
    intro i _
    have hidx : step + step * i = step * (i + 1) := by ring
    rw [Function.comp_apply, List.drop_drop, hidx]

theorem chunksOf_length {α : Type} (step : Nat) (hstep : 0 < step) (data : List α)
    (n : Nat) (hlen : data.length = step * n) : (chunksOf step data).length = n := by
  rw [chunksOf_eq_range_map step hstep n data hlen]
  simp

/-- Claim C4: for any characteristic and any byte string whose length is an
exact multiple of the characteristic's element width, `convert_data` returns
one integer per consecutive width-byte group, each decoded as a little-endian
fixed-width integer, two's-complement signed exactly for ppg and imu. -/
theorem convert_data_exact (char : String) (step : Nat) (data : List Nat)
    (hs : bytes_per_int char = some step) (hstep : 0 < step)
    (hdvd : step ∣ data.length) :
    convert_data char data =
      some ((chunksOf step data).map
        (int_from_bytes_le (if char = "ppg" ∨ char = "imu" then true else false))) ∧
    (chunksOf step data).length = data.length / step := by
  obtain ⟨n, hn⟩ := hdvd
  have hdiv : data.length / step = n := by
    rw [hn]
    exact Nat.mul_div_cancel_left n hstep
  constructor
  · unfold convert_data
    rw [hs, Option.map_some', chunksOf_eq_range_map step hstep n data hn,
      List.map_map, hdiv]
    rfl
  · rw [chunksOf_length step hstep data n hn, hdiv]

/-- Witness for `convert_data_exact`: the spec's decoding example — imu bytes
`00 00 FF FF 02 00` decode to `[0, -1, 2]` (signed little-endian 16-bit). -/
theorem convert_data_exact_witness :
    convert_data ("imu") [0, 0, 255, 255, 2, 0] = some [0, -1, 2] ∧
    (chunksOf 2 [0, 0, 255, 255, 2, 0]).length = [0, 0, 255, 255, 2, 0].length / 2 := by
  have h := convert_data_exact ("imu") 2 [0, 0, 255, 255, 2, 0] rfl
    (by decide) (by decide)
  refine ⟨?_, h.2⟩
  rw [h.1]
  rw [chunksOf, chunksOf, chunksOf, chunksOf]
  norm_num
  decide

/-! ## Ble.py : notification callback

`callback` (Ble.py, lines 297-305) inside `connection_task`: stamps the
wall-clock time, converts the payload and appends one raw sample to
`Globals.unprocessed_data[address]` (creating the list on first use).
-/

structure RawSample where
  ts : Nat
  char : String
  values : List Int
deriving DecidableEq

def callback (address : String) (sender timestamp : Nat) (data : List Nat)
    (unprocessed_data : List (String × List RawSample)) :
    Option (List (String × List RawSample)) :=
  (notify_handles sender).bind (fun char =>
    (convert_data char data).map (fun converted_data =>
      if containsKey unprocessed_data address = false then
        dinsert unprocessed_data address
          [{ ts := timestamp, char := char, values := converted_data }]
      else
        dinsert unprocessed_data address
          ((dlookup unprocessed_data address).getD []
            ++ [{ ts := timestamp, char := char, values := converted_data }])))

/-- Claim C3 counterexample: an imu notification of 3 bytes (not a multiple of
the element width 2) is not dropped — the callback appends a sample holding the
single decoded group, silently ignoring the trailing byte. -/
theorem callback_appends_on_ragged_payload :
    bytes_per_int ("imu") = some 2 ∧ ¬ (3 % 2 = 0) ∧
    callback ("AA") 2 1000 [0, 0, 255] [] =
      some [("AA", [{ ts := 1000, char := "imu", values := [0] }])] := by
  refine ⟨rfl, by decide, rfl⟩

theorem notify_handles_width (sender : Nat) (char : String)
    (h : notify_handles sender = some char) :
    ∃ step, bytes_per_int char = some step ∧ 0 < step := by
  unfold notify_handles at h
  split_ifs at h <;>
    (injection h with h; subst h) <;>
    first
      | exact ⟨2, rfl, by decide⟩
      | exact ⟨4, rfl, by decide⟩

/-- Claim C3 (amended): there is no length check — for every notification on a
known characteristic handle, `convert_data` decodes the `⌊len/width⌋` complete
width-byte groups (trailing remainder bytes are ignored) and the callback
always appends exactly one sample with those values to `unprocessed_data`;
nothing is dropped. -/
theorem callback_always_appends (address : String) (sender timestamp : Nat)
    (data : List Nat) (char : String)
    (unprocessed_data : List (String × List RawSample))
    (h : notify_handles sender = some char) :
    ∃ step converted_data, bytes_per_int char = some step ∧
      convert_data char data = some converted_data ∧
      converted_data.length = data.length / step ∧
      callback address sender timestamp data unprocessed_data =
        some (dinsert unprocessed_data address
          ((dlookup unprocessed_data address).getD []
            ++ [{ ts := timestamp, char := char, values := converted_data }])) := by
  obtain ⟨step, hstep, _⟩ := notify_handles_width sender char h
  have hconv : convert_data char data =
      some ((List.range (data.length / step)).map (fun index =>
        int_from_bytes_le (if char = "ppg" ∨ char = "imu" then true else false)
          ((data.drop (step * index)).take step))) := by
    unfold convert_data
    rw [hstep, Option.map_some']
  refine ⟨step, _, hstep, hconv, by simp, ?_⟩
  unfold callback
  rw [h]
  simp only [Option.some_bind]
  rw [hconv]
  simp only [Option.map_some']
  congr 1
  by_cases hck : containsKey unprocessed_data address = false
  · rw [if_pos hck, dlookup_eq_none_of_not_containsKey _ _ hck]
    rfl
  · rw [if_neg hck]

/-- Witness for `callback_always_appends`: the ragged 3-byte imu payload,
appended (truncated to one decoded group) onto an empty mailbox. -/
theorem callback_always_appends_witness :
    ∃ step converted_data, bytes_per_int ("imu") = some step ∧
      convert_data ("imu") [0, 0, 255] = some converted_data ∧
      converted_data.length = 3 / step ∧
      callback ("AA") 2 1000 [0, 0, 255] [] =
        some (dinsert [] ("AA")
          ((dlookup ([] : List (String × List RawSample)) ("AA")).getD []
            ++ [{ ts := 1000, char := "imu", values := converted_data }])) :=
  callback_always_appends ("AA") 2 1000 [0, 0, 255] ("imu") [] rfl

/-! ## DataProcessing.py : per-patch rolling windows

One patch's slice of the module-level dicts `local_ppg`, `local_imu_raw`,
`local_temp`, `local_voltage`, `local_activity_level`, `local_imu_converted`,
`local_HR`, `local_SPO2`.  An address absent from a dict is the empty list;
`voltage` keeps the absent/present distinction because `delete_old_data` and
`calc_battery_percentage` guard on `address in local_voltage`.  Float
arithmetic is modelled exactly over ℚ.
-/

structure PatchWindows where
  ppg : List (List Int)
  imu_raw : List (List Int)
  temp : List ℚ
  voltage : Option (List Int)
  activity : List Int
  imu_converted : List (List ℚ)
  hr : List Int
  spo2 : List Int
deriving DecidableEq

/-- The repeated trim pattern of `delete_old_data`:
`if len(l) > cap: l = l[k:]` (drop the oldest `k` elements). -/
def trimStep {α : Type} (cap k : Nat) (l : List α) : List α :=
  if cap < l.length then l.drop k else l

/-- `delete_old_data` (DataProcessing.py, lines 97-121): ppg trims `[4000:]`
past 5000, imu raw/converted trim `[1000:]` past 2000, the six scalar windows
trim `[100:]` past 200. -/
def delete_old_data (w : PatchWindows) : PatchWindows where
  ppg := trimStep 5000 4000 w.ppg
  imu_raw := trimStep 2000 1000 w.imu_raw
  temp := trimStep 200 100 w.temp
  voltage := w.voltage.map (trimStep 200 100)
  activity := trimStep 200 100 w.activity
  imu_converted := trimStep 2000 1000 w.imu_converted
  hr := trimStep 200 100 w.hr
  spo2 := trimStep 200 100 w.spo2

theorem trimStep_suffix {α : Type} (cap k : Nat) (l : List α) :
    trimStep cap k l <:+ l := by
  unfold trimStep
  split
  · exact List.drop_suffix k l
  · exact List.suffix_refl l

theorem trimStep_length_le {α : Type} (cap k : Nat) (l : List α)
    (h : l.length ≤ cap + k) : (trimStep cap k l).length ≤ cap := by
  unfold trimStep
  split
  · rw [List.length_drop]
    omega
  · omega

theorem trimStep_length_exceeded {α : Type} (cap k : Nat) (l : List α)
    (h : cap < l.length) : (trimStep cap k l).length = l.length - k := by
  unfold trimStep
  rw [if_pos h, List.length_drop]

/-- Claim C5 counterexample: a ppg window of 5001 rows retains 1001 rows after
the trim (the code drops a fixed oldest prefix of 4000), not the claimed
cap/2 = 2500; and a ppg window of 10000 rows retains 6000 rows, which exceeds
the cap 5000, refuting the claimed post-trim bound as well. -/
theorem delete_old_data_not_half_cap :
    ((delete_old_data (PatchWindows.mk (List.replicate 5001 [])
        [] [] none [] [] [] [])).ppg.length = 1001 ∧ ¬ (1001 = 2500)) ∧
    ((delete_old_data (PatchWindows.mk (List.replicate 10000 [])
        [] [] none [] [] [] [])).ppg.length = 6000 ∧ ¬ (6000 ≤ 5000)) := by
  have hproj : ∀ w : PatchWindows, (delete_old_data w).ppg = trimStep 5000 4000 w.ppg :=
    fun _ => rfl
  refine ⟨⟨?_, by decide⟩, ⟨?_, by decide⟩⟩
  · have h := trimStep_length_exceeded 5000 4000 (List.replicate 5001 ([] : List Int))
      (by rw [List.length_replicate]; norm_num)
    rw [hproj, h, List.length_replicate]
  · have h := trimStep_length_exceeded 5000 4000 (List.replicate 10000 ([] : List Int))
      (by rw [List.length_replicate]; norm_num)
    rw [hproj, h, List.length_replicate]

/-- What one trimmed window satisfies: the kept elements are a suffix (the
newest) of the original, the post-trim length is within the cap provided the
window had not overshot it by more than the dropped prefix `k`, and a window
that exceeded its cap retains exactly `len − k` elements. -/
def trimmedOk {α : Type} (cap k : Nat) (pre post : List α) : Prop :=
  post <:+ pre ∧ (pre.length ≤ cap + k → post.length ≤ cap) ∧
    (cap < pre.length → post.length = pre.length - k)

theorem trimStep_trimmedOk {α : Type} (cap k : Nat) (l : List α) :
    trimmedOk cap k l (trimStep cap k l) :=
  ⟨trimStep_suffix cap k l, trimStep_length_le cap k l,
    trimStep_length_exceeded cap k l⟩

/-- Claim C5 (amended): for each rolling window, `delete_old_data` drops a
fixed-length oldest prefix when the cap is exceeded (ppg: 4000, imu raw and
imu converted: 1000, temperature/voltage/activity/HR/SpO₂: 100), retaining the
newest `len − prefix` elements; the post-trim length is at most the cap
whenever the pre-trim length was at most cap + prefix. -/
theorem delete_old_data_trims (w : PatchWindows) :
    trimmedOk 5000 4000 w.ppg (delete_old_data w).ppg ∧
    trimmedOk 2000 1000 w.imu_raw (delete_old_data w).imu_raw ∧
    trimmedOk 200 100 w.temp (delete_old_data w).temp ∧
    (∀ v, w.voltage = some v →
      ∃ v', (delete_old_data w).voltage = some v' ∧ trimmedOk 200 100 v v') ∧
    (w.voltage = none → (delete_old_data w).voltage = none) ∧
    trimmedOk 200 100 w.activity (delete_old_data w).activity ∧
    trimmedOk 2000 1000 w.imu_converted (delete_old_data w).imu_converted ∧
    trimmedOk 200 100 w.hr (delete_old_data w).hr ∧
    trimmedOk 200 100 w.spo2 (delete_old_data w).spo2 := by
  refine ⟨trimStep_trimmedOk _ _ _, trimStep_trimmedOk _ _ _, trimStep_trimmedOk _ _ _,
    ?_, ?_, trimStep_trimmedOk _ _ _, trimStep_trimmedOk _ _ _,
    trimStep_trimmedOk _ _ _, trimStep_trimmedOk _ _ _⟩
  · intro v hv
    refine ⟨trimStep 200 100 v, ?_, trimStep_trimmedOk _ _ _⟩
    simp [delete_old_data, hv]
  · intro hv
    simp [delete_old_data, hv]

/-- Witness for `delete_old_data_trims`: the overfull-ppg window evaluated
concretely (5001 rows in, the newest 1001 kept, a suffix of the input). -/
theorem delete_old_data_trims_witness :
    trimmedOk 5000 4000 (List.replicate 5001 ([] : List Int))
      (delete_old_data (PatchWindows.mk (List.replicate 5001 [])
        [] [] none [] [] [] [])).ppg ∧
    (delete_old_data (PatchWindows.mk (List.replicate 5001 [])
        [] [] none [] [] [] [])).voltage = none :=
  ⟨(delete_old_data_trims (PatchWindows.mk (List.replicate 5001 [])
      [] [] none [] [] [] [])).1,
   (delete_old_data_trims (PatchWindows.mk (List.replicate 5001 [])
      [] [] none [] [] [] [])).2.2.2.2.1 rfl⟩

/-! ## DataProcessing.py : SpO₂ estimation (tail of `ppg_analysis`)

The Butterworth filter, FFT and window means (lines 337-359) are scipy/numpy
collaborators; their four outputs (AC magnitudes at the heart-rate bin, DC
means) enter as arguments.  `pythonRound` is Python 3 `round`: nearest
integer, ties to even.
-/

def a_coeff : ℚ := 15958422 / 10000000

def b_coeff : ℚ := -346596622 / 10000000

def c_coeff : ℚ := 1126898759 / 10000000

def pythonRound (x : ℚ) : Int :=
  if x - (⌊x⌋ : ℚ) < 1/2 then ⌊x⌋
  else if 1/2 < x - (⌊x⌋ : ℚ) then ⌊x⌋ + 1
  else if ⌊x⌋ % 2 = 0 then ⌊x⌋ else ⌊x⌋ + 1

/-- `ppg_analysis` SpO₂ value (DataProcessing.py, lines 361-365):
`R = (ac_red/dc_red)/(ac_ir/dc_ir)`, `SPO2 = round(a·R² + b·R + c)`,
clipped to 100 when above. -/
def ppg_spo2 (ac_red dc_red ac_ir dc_ir : ℚ) : Int :=
  let R := (ac_red / dc_red) / (ac_ir / dc_ir)
  let SPO2 := pythonRound (a_coeff * R ^ 2 + b_coeff * R + c_coeff)
  if 100 < SPO2 then 100 else SPO2

/-- `ppg_analysis` SpO₂ history append (DataProcessing.py, lines 366-369). -/
def ppg_spo2_update (spo2_hist : List Int) (ac_red dc_red ac_ir dc_ir : ℚ) :
    List Int :=
  spo2_hist ++ [ppg_spo2 ac_red dc_red ac_ir dc_ir]

theorem pythonRound_bounds (x : ℚ) :
    (⌊x⌋ : Int) ≤ pythonRound x ∧ pythonRound x ≤ ⌊x⌋ + 1 := by
  unfold pythonRound
  split_ifs <;> omega

/-- Claim C6: `ppg_analysis` appends to the SpO₂ history the value
`round(1.5958422·R² − 34.6596622·R + 112.6898759)` clipped to at most 100,
with `R = (AC_red/DC_red)/(AC_ir/DC_ir)`; for R = 1 the stored value is 80,
and whenever the raw polynomial value exceeds 100 the stored value is 100. -/
theorem ppg_spo2_correct (spo2_hist : List Int) (ac_red dc_red ac_ir dc_ir : ℚ) :
    ppg_spo2_update spo2_hist ac_red dc_red ac_ir dc_ir =
      spo2_hist ++ [ppg_spo2 ac_red dc_red ac_ir dc_ir] ∧
    ppg_spo2 ac_red dc_red ac_ir dc_ir =
      min 100 (pythonRound (a_coeff * ((ac_red / dc_red) / (ac_ir / dc_ir)) ^ 2 +
        b_coeff * ((ac_red / dc_red) / (ac_ir / dc_ir)) + c_coeff)) ∧
    ((ac_red / dc_red) / (ac_ir / dc_ir) = 1 →
      ppg_spo2 ac_red dc_red ac_ir dc_ir = 80) ∧
    (100 < a_coeff * ((ac_red / dc_red) / (ac_ir / dc_ir)) ^ 2 +
        b_coeff * ((ac_red / dc_red) / (ac_ir / dc_ir)) + c_coeff →
      ppg_spo2 ac_red dc_red ac_ir dc_ir = 100) := by
  have hif : ∀ S : Int, (if 100 < S then (100 : Int) else S) = min 100 S := by
    intro S
    split <;> omega
  have hmin : ppg_spo2 ac_red dc_red ac_ir dc_ir =
      min 100 (pythonRound (a_coeff * ((ac_red / dc_red) / (ac_ir / dc_ir)) ^ 2 +
        b_coeff * ((ac_red / dc_red) / (ac_ir / dc_ir)) + c_coeff)) := hif _
  refine ⟨rfl, hmin, ?_, ?_⟩
  · intro hR
    rw [hmin, hR]
    norm_num [pythonRound, a_coeff, b_coeff, c_coeff]
  · intro hpoly
    rw [hmin]
    have hfl : (100 : Int) ≤ ⌊a_coeff * ((ac_red / dc_red) / (ac_ir / dc_ir)) ^ 2 +
        b_coeff * ((ac_red / dc_red) / (ac_ir / dc_ir)) + c_coeff⌋ := by
      apply Int.le_floor.mpr
      push_cast
      exact le_of_lt hpoly
    have hb := pythonRound_bounds (a_coeff * ((ac_red / dc_red) / (ac_ir / dc_ir)) ^ 2 +
        b_coeff * ((ac_red / dc_red) / (ac_ir / dc_ir)) + c_coeff)
    omega

/-- Witness for `ppg_spo2_correct`: equal AC/DC ratios (R = 1) store 80. -/
theorem ppg_spo2_correct_witness :
    ppg_spo2_update [] 1 1 1 1 = [] ++ [ppg_spo2 1 1 1 1] ∧
    ppg_spo2 1 1 1 1 = 80 := by
  have h := ppg_spo2_correct [] 1 1 1 1
  exact ⟨h.1, h.2.2.1 (by norm_num)⟩

/-! ## DataProcessing.py : `imu_conversion`

The raw 6-column IMU rows are scaled by the diagonal
`[0.0175, 0.0175, 0.0175, 0.000598, 0.000598, 0.000598]` (lines 307-310).
The activity loop (lines 315-321) computes
`abs_xl[i] = sqrt(conv[-i,3]² + conv[-i,4]² + conv[-i,5]²)` for
`i in range(120)` and sets activity to 1 when `max(abs_xl) > 12.0`.  Since
`sqrt` is monotone and the radicand is a sum of squares, `√s > 12 ↔ s > 144`;
the embedding compares the squared magnitude with 144, which is exact and
avoids irrational arithmetic.  Note the Python index `conv[-i]`: for `i = 0`
it is `conv[0]`, the oldest row, not the newest. -/

def conversion_diagonal : List ℚ :=
  [175/10000, 175/10000, 175/10000, 598/1000000, 598/1000000, 598/1000000]

/-- One row of `np.matmul(local_imu_raw[address], np.diag(a[0]))`: entry `j`
is `raw[j] * diagonal[j]`. -/
def imu_convert_row (row : List Int) : List ℚ :=
  List.zipWith (fun x c => (x : ℚ) * c) row conversion_diagonal

/-- Python `l[-i]` for `0 ≤ i ≤ len(l)`: index `-0` is the first element,
`-i` (i ≥ 1) is the i-th newest.  (The code only evaluates it with
`len(l) ≥ 120 > i`, where no IndexError can occur.) -/
def pyNegIndex {α : Type} (l : List α) (i : Nat) (default : α) : α :=
  if i = 0 then l.getD 0 default else l.getD (l.length - i) default

def accel_sq (row : List ℚ) : ℚ :=
  row.getD 3 0 ^ 2 + row.getD 4 0 ^ 2 + row.getD 5 0 ^ 2

/-- The activity bit of `imu_conversion` exactly as coded: scan the rows at
Python indices `-0, -1, ..., -119`. -/
def imu_activity (conv : List (List ℚ)) : Int :=
  if (List.range 120).any (fun i => 144 < accel_sq (pyNegIndex conv i [])) then 1
  else 0

/-- `imu_conversion` (DataProcessing.py, lines 300-326): recompute the
converted window from the whole raw window, then append the activity bit. -/
def imu_conversion (imu_raw : List (List Int)) (activity_hist : List Int) :
    List (List ℚ) × List Int :=
  let conv := imu_raw.map imu_convert_row
  (conv, activity_hist ++ [imu_activity conv])

/-- The activity bit as claim C7 states it: 1 iff one of the newest 120
converted rows has accelerometer magnitude above 12 (squared above 144). -/
def claimed_activity (conv : List (List ℚ)) : Int :=
  if (conv.drop (conv.length - 120)).any (fun row => 144 < accel_sq row) then 1
  else 0

/-- A raw IMU row at rest. -/
def imu_zero_row : List Int := [0, 0, 0, 0, 0, 0]

/-- A raw IMU row with a hard z-axis acceleration: converted,
30000 · 0.000598 = 17.94 m/s², whose square 321.8436 exceeds 144. -/
def imu_big_row : List Int := [0, 0, 0, 0, 0, 30000]

/-- The divergence window: 121 raw rows whose only strong acceleration is in
row 1, the 120th-newest row. -/
def imu_bug_window : List (List Int) :=
  [imu_zero_row, imu_big_row] ++ List.replicate 119 imu_zero_row

def imu_bug_conv : List (List ℚ) := imu_bug_window.map imu_convert_row

theorem getD_replicate {α : Type} (n j : Nat) (x d : α) (h : j < n) :
    (List.replicate n x).getD j d = x := by
  induction n generalizing j with
  | zero => omega
  | succ m ih =>
    cases j with
    | zero => rfl
    | succ jj =>
      rw [List.replicate_succ, List.getD_cons_succ]
      exact ih jj (by omega)

/-- Claim C7 (code bug): on the 121-row converted window whose only large
acceleration sits in row 1 — the 120th-newest row, inside the claimed last-120
window — the code reports activity 0, because its loop index `-i` visits row 0
(`conv[-0]` is the first row) and rows 2..120, never row 1.  The last-120
reading of the claim reports 1. -/
theorem imu_activity_misses_second_newest_row :
    imu_bug_conv.length = 121 ∧
    imu_activity imu_bug_conv = 0 ∧
    claimed_activity imu_bug_conv = 1 := by
  have hconv : imu_bug_conv =
      imu_convert_row imu_zero_row :: imu_convert_row imu_big_row ::
        List.replicate 119 (imu_convert_row imu_zero_row) := by
    simp [imu_bug_conv, imu_bug_window, List.map_replicate]
  have hzero : imu_convert_row imu_zero_row = [0, 0, 0, 0, 0, 0] := by
    norm_num [imu_convert_row, imu_zero_row, conversion_diagonal]
  have hbig : imu_convert_row imu_big_row = [0, 0, 0, 0, 0, 897/50] := by
    norm_num [imu_convert_row, imu_big_row, conversion_diagonal]
  have haccel_zero : accel_sq (imu_convert_row imu_zero_row) = 0 := by
    rw [hzero]
    norm_num [accel_sq, List.getD_cons_succ, List.getD_cons_zero]
  have haccel_big : 144 < accel_sq (imu_convert_row imu_big_row) := by
    rw [hbig]
    norm_num [accel_sq, List.getD_cons_succ, List.getD_cons_zero]
  have hlen : imu_bug_conv.length = 121 := by
    rw [hconv]
    simp
  have hvisited : ∀ x : Nat, x < 120 →
      pyNegIndex imu_bug_conv x [] = imu_convert_row imu_zero_row := by
    intro x hx
    unfold pyNegIndex
    by_cases hx0 : x = 0
    · rw [if_pos hx0, hconv, List.getD_cons_zero]
    · rw [if_neg hx0, hlen, hconv]
      have hidx : 121 - x = (119 - x) + 2 := by omega
      rw [hidx, List.getD_cons_succ, List.getD_cons_succ]
      exact getD_replicate 119 (119 - x) _ _ (by omega)
  refine ⟨hlen, ?_, ?_⟩
  · have hno : ¬ (((List.range 120).any fun i =>
        decide (144 < accel_sq (pyNegIndex imu_bug_conv i []))) = true) := by
      intro hany
      rw [List.any_eq_true] at hany
      obtain ⟨x, hx, hfx⟩ := hany
      rw [List.mem_range] at hx
      rw [hvisited x hx, decide_eq_true_eq, haccel_zero] at hfx
      norm_num at hfx
    unfold imu_activity
    rw [if_neg hno]
  · have hdrop : imu_bug_conv.drop (imu_bug_conv.length - 120) =
        imu_convert_row imu_big_row ::
          List.replicate 119 (imu_convert_row imu_zero_row) := by
      rw [hlen, hconv]
      rfl
    have hany : ((imu_convert_row imu_big_row ::
        List.replicate 119 (imu_convert_row imu_zero_row)).any
          (fun row => decide (144 < accel_sq row))) = true := by
      rw [List.any_cons, decide_eq_true haccel_big, Bool.true_or]
    unfold claimed_activity
    rw [hdrop, if_pos hany]

/-! ## DataProcessing.py : battery percentage -/

/-- `calc_battery_percentage` body (DataProcessing.py, lines 409-414) on the
latest stored voltage sample (mV). -/
def calc_battery_percentage (voltage_window : List Int) : ℚ :=
  if 3650 < voltage_window.getLastD 0 then
    12 + (176/1000) * ((voltage_window.getLastD 0 : ℚ) - 3650)
  else (342/10000) * ((voltage_window.getLastD 0 : ℚ) - 3650)

/-- The surrounding guard (`if address in local_voltage`, line 409): a patch
with no voltage window keeps its previous battery value (initially absent). -/
def calc_battery_update (voltage : Option (List Int)) (battery : Option ℚ) :
    Option ℚ :=
  match voltage with
  | none => battery
  | some vs => some (calc_battery_percentage vs)

structure Datapoint where
  ts : Nat
  firmwareVersion : ℚ
  batteryPercentage : ℚ
  temperature : ℚ
  heartrate : Int
  respirationRate : ℚ
  bloodOxygenation : Int
  activityLevel : Int
deriving DecidableEq

/-- `write_back` (DataProcessing.py, lines 161-184): build the Datapoint from
the latest values; `batteryPercentage` defaults to 100 when the patch has no
stored battery value. -/
def write_back (current_ts : Nat) (battery : Option ℚ) (temp : List ℚ)
    (hr : List Int) (hp_RR : List ℚ) (spo2 : List Int) (activity : List Int) :
    Datapoint where
  ts := current_ts
  firmwareVersion := 123/100
  batteryPercentage := battery.getD 100
  temperature := temp.getLastD 0
  heartrate := hr.getLastD 0
  respirationRate := hp_RR.getLastD 0
  bloodOxygenation := spo2.getLastD 0
  activityLevel := activity.getLastD 0

/-- Claim C8 counterexample: at exactly 3650 mV the comparison `voltage > 3650`
fails, so the code takes the discharge branch and computes 0.0342·0 = 0 — not
the 12 the claim asserts for v = 3650. -/
theorem battery_at_3650_is_zero :
    calc_battery_percentage [3650] = 0 ∧ ¬ (calc_battery_percentage [3650] = 12) := by
  have hl : ([3650] : List Int).getLastD 0 = 3650 := rfl
  have h0 : calc_battery_percentage [3650] = 0 := by
    unfold calc_battery_percentage
    rw [hl]
    norm_num
  exact ⟨h0, by rw [h0]; norm_num⟩

/-- Claim C8 (amended): the battery percentage from the latest voltage v (mV)
is 12 + 0.176·(v − 3650) when v > 3650 and 0.0342·(v − 3650) when v ≤ 3650
(so v = 3650 gives 0, not 12), with no clipping: 4150 ↦ 100, 3500 ↦ −5.13;
and a patch with no voltage window keeps no battery value, so its emitted
Datapoint carries the default batteryPercentage 100. -/
theorem calc_battery_spec (voltage_window : List Int) :
    (3650 < voltage_window.getLastD 0 →
      calc_battery_percentage voltage_window =
        12 + (176/1000) * ((voltage_window.getLastD 0 : ℚ) - 3650)) ∧
    (voltage_window.getLastD 0 ≤ 3650 →
      calc_battery_percentage voltage_window =
        (342/10000) * ((voltage_window.getLastD 0 : ℚ) - 3650)) ∧
    calc_battery_percentage [4150] = 100 ∧
    calc_battery_percentage [3650] = 0 ∧
    calc_battery_percentage [3500] = -513/100 ∧
    (∀ battery, calc_battery_update none battery = battery) ∧
    (∀ ts temp hr rr spo2 act,
      (write_back ts none temp hr rr spo2 act).batteryPercentage = 100) := by
  refine ⟨?_, ?_, ?_, ?_, ?_, fun _ => rfl, fun _ _ _ _ _ _ => rfl⟩
  · intro h
    unfold calc_battery_percentage
    rw [if_pos h]
  · intro h
    unfold calc_battery_percentage
    rw [if_neg (by omega)]
  · unfold calc_battery_percentage
    rw [show ([4150] : List Int).getLastD 0 = 4150 from rfl]
    norm_num
  · unfold calc_battery_percentage
    rw [show ([3650] : List Int).getLastD 0 = 3650 from rfl]
    norm_num
  · unfold calc_battery_percentage
    rw [show ([3500] : List Int).getLastD 0 = 3500 from rfl]
    norm_num

/-- Witness for `calc_battery_spec`: both branches evaluated concretely —
4150 mV hits the charge branch, 3500 mV the discharge branch. -/
theorem calc_battery_spec_witness :
    calc_battery_percentage [4150] =
      12 + (176/1000) * ((([4150] : List Int).getLastD 0 : ℚ) - 3650) ∧
    calc_battery_percentage [3500] =
      (342/10000) * ((([3500] : List Int).getLastD 0 : ℚ) - 3650) :=
  ⟨(calc_battery_spec [4150]).1 (by decide),
   (calc_battery_spec [3500]).2.1 (by decide)⟩

/-! ## DataProcessing.py : the per-patch pipeline of `data_processing`

`split_data` (lines 124-158) distributes one drained batch into the rolling
windows: ppg reshaped to rows of 3, imu to rows of 6 (numpy `reshape`
requires exact divisibility; `chunksOf` is its model on such input),
temperature divided by 200.0, voltage stored raw; unknown characteristics are
printed and skipped.  The scipy/heartpy numerics are external collaborators:
the heart-rate value and the AC/DC components feeding `ppg_spo2`, and the
heartpy measures, enter as arguments.  `HpOutcome.bad` is heartpy raising
`BadSignalWarning`, caught by the `except` clause of `data_processing`
(lines 439-448), which logs and abandons the rest of that patch's iteration.
-/

def split_datapoint (w : PatchWindows) (char : String) (val : List Int) :
    PatchWindows :=
  if char = "ppg" then { w with ppg := w.ppg ++ chunksOf 3 val }
  else if char = "imu" then { w with imu_raw := w.imu_raw ++ chunksOf 6 val }
  else if char = "temperature" then
    { w with temp := w.temp ++ [(val.getD 0 0 : ℚ) / 200] }
  else if char = "voltage" then
    { w with voltage := some (w.voltage.getD [] ++ [val.getD 0 0]) }
  else w

def split_data (batch : List RawSample) (w : PatchWindows) : PatchWindows :=
  batch.foldl (fun acc dp => split_datapoint acc dp.char dp.values) w

/-- `ppg_analysis` as a window update (DataProcessing.py, lines 329-369): the
heart-rate estimate and the SpO₂ value are appended to their histories.  The
band-pass/FFT front end supplies `hr_val` and the four AC/DC components. -/
def ppg_analysis_update (hr_val : Int) (ac_red dc_red ac_ir dc_ir : ℚ)
    (w : PatchWindows) : PatchWindows :=
  { w with hr := w.hr ++ [hr_val],
           spo2 := ppg_spo2_update w.spo2 ac_red dc_red ac_ir dc_ir }

/-- `imu_conversion` as a window update: the converted window is recomputed
from the whole raw window and the activity bit appended. -/
def imu_conversion_update (w : PatchWindows) : PatchWindows :=
  { w with imu_converted := w.imu_raw.map imu_convert_row,
           activity := w.activity ++ [imu_activity (w.imu_raw.map imu_convert_row)] }

structure HpMeasures where
  bpm : ℚ
  rmssd : ℚ
  breathingrate : ℚ
deriving DecidableEq

inductive HpOutcome where
  | bad : HpOutcome
  | ok : HpMeasures → HpOutcome
deriving DecidableEq

structure DspState where
  windows : PatchWindows
  hp_HR : List ℚ
  hp_RMSSD : List ℚ
  hp_RR : List ℚ
  battery : Option ℚ
  processed : List Datapoint
deriving DecidableEq

/-- `heartpy_analysis` (DataProcessing.py, lines 372-397) on a successful
`hp.process` call: append bpm, rmssd and breathing rate. -/
def heartpy_analysis_update (m : HpMeasures) (s : DspState) : DspState :=
  { s with hp_HR := s.hp_HR ++ [m.bpm],
           hp_RMSSD := s.hp_RMSSD ++ [m.rmssd],
           hp_RR := s.hp_RR ++ [m.breathingrate] }

/-- One per-patch pass of the `data_processing` try-block (DataProcessing.py,
lines 439-448): split_data, ppg_analysis, imu_conversion,
calc_battery_percentage, heartpy_analysis, write_back, delete_old_data.  When
heartpy raises `BadSignalWarning` the exception aborts the sequence right
there: write_back and delete_old_data never run, and the handler only logs. -/
def patch_iteration (current_ts : Nat) (batch : List RawSample) (hr_val : Int)
    (ac_red dc_red ac_ir dc_ir : ℚ) (hp_out : HpOutcome) (s : DspState) :
    DspState :=
  let w1 := split_data batch s.windows
  let w2 := ppg_analysis_update hr_val ac_red dc_red ac_ir dc_ir w1
  let w3 := imu_conversion_update w2
  let battery := calc_battery_update w3.voltage s.battery
  match hp_out with
  | HpOutcome.bad => { s with windows := w3, battery := battery }
  | HpOutcome.ok m =>
    let s1 := heartpy_analysis_update m { s with windows := w3, battery := battery }
    let d := write_back current_ts battery w3.temp w3.hr s1.hp_RR w3.spo2 w3.activity
    { s1 with processed := s1.processed ++ [d], windows := delete_old_data w3 }

theorem split_datapoint_ppg_grows (w : PatchWindows) (char : String)
    (val : List Int) : w.ppg <+: (split_datapoint w char val).ppg := by
  unfold split_datapoint
  split_ifs <;> first | exact List.prefix_append _ _ | exact List.prefix_refl _

theorem split_datapoint_imu_grows (w : PatchWindows) (char : String)
    (val : List Int) : w.imu_raw <+: (split_datapoint w char val).imu_raw := by
  unfold split_datapoint
  split_ifs <;> first | exact List.prefix_append _ _ | exact List.prefix_refl _

theorem split_data_ppg_grows (batch : List RawSample) (w : PatchWindows) :
    w.ppg <+: (split_data batch w).ppg := by
  induction batch generalizing w with
  | nil => exact List.prefix_refl _
  | cons dp rest ih =>
    exact (split_datapoint_ppg_grows w dp.char dp.values).trans
      (ih (split_datapoint w dp.char dp.values))

theorem split_data_imu_grows (batch : List RawSample) (w : PatchWindows) :
    w.imu_raw <+: (split_data batch w).imu_raw := by
  induction batch generalizing w with
  | nil => exact List.prefix_refl _
  | cons dp rest ih =>
    exact (split_datapoint_imu_grows w dp.char dp.values).trans
      (ih (split_datapoint w dp.char dp.values))

/-- Claim C9: when heartpy rejects the PPG signal (`BadSignalWarning`), the
patch's iteration is abandoned with only a log: no Datapoint is appended to
the processed mailbox this tick, and the rolling windows keep exactly their
just-extended, untrimmed contents (the batch data freshly appended by
split_data is retained for the next attempt). -/
theorem patch_iteration_bad_signal (current_ts : Nat) (batch : List RawSample)
    (hr_val : Int) (ac_red dc_red ac_ir dc_ir : ℚ) (s : DspState) :
    (patch_iteration current_ts batch hr_val ac_red dc_red ac_ir dc_ir
      HpOutcome.bad s).processed = s.processed ∧
    (patch_iteration current_ts batch hr_val ac_red dc_red ac_ir dc_ir
      HpOutcome.bad s).windows =
      imu_conversion_update (ppg_analysis_update hr_val ac_red dc_red ac_ir dc_ir
        (split_data batch s.windows)) ∧
    s.windows.ppg <+: (patch_iteration current_ts batch hr_val ac_red dc_red ac_ir
      dc_ir HpOutcome.bad s).windows.ppg ∧
    s.windows.imu_raw <+: (patch_iteration current_ts batch hr_val ac_red dc_red
      ac_ir dc_ir HpOutcome.bad s).windows.imu_raw ∧
    (patch_iteration current_ts batch hr_val ac_red dc_red ac_ir dc_ir
      HpOutcome.bad s).hp_RR = s.hp_RR := by
  refine ⟨rfl, rfl, ?_, ?_, rfl⟩
  · exact split_data_ppg_grows batch s.windows
  · exact split_data_imu_grows batch s.windows

/-! ## DataProcessing.py : `no_data_processing` (pass-through mode) -/

/-- One loop iteration of `no_data_processing` (DataProcessing.py, lines
457-473) acting on the two mailboxes: when the raw mailbox is non-empty it is
drained into a local variable, reset to empty, and then **assigned** to
`Globals.processed_data`. -/
def no_data_processing_step
    (unprocessed_data processed_data : List (String × List RawSample)) :
    List (String × List RawSample) × List (String × List RawSample) :=
  if unprocessed_data = [] then (unprocessed_data, processed_data)
  else ([], unprocessed_data)

/-- Claim C10: whenever the raw mailbox is non-empty, the pass-through step
empties it and assigns its entire contents to the processed mailbox — a
wholesale replacement, independent of whatever was pending there, so undrained
Datapoints in the processed mailbox are discarded. -/
theorem no_data_processing_replaces
    (unprocessed_data processed_data : List (String × List RawSample))
    (h : unprocessed_data ≠ []) :
    no_data_processing_step unprocessed_data processed_data =
      ([], unprocessed_data) ∧
    (∀ other, no_data_processing_step unprocessed_data processed_data =
      no_data_processing_step unprocessed_data other) := by
  unfold no_data_processing_step
  rw [if_neg h]
  exact ⟨rfl, fun other => by rw [if_neg h]⟩

/-- Witness for `no_data_processing_replaces`: a pending processed Datapoint
list is discarded in favour of the drained raw mailbox. -/
theorem no_data_processing_replaces_witness :
    no_data_processing_step [("AA", [RawSample.mk 1 ("imu") [0]])]
        [("BB", [RawSample.mk 2 ("ppg") [7]])] =
      ([], [("AA", [RawSample.mk 1 ("imu") [0]])]) ∧
    (∀ other, no_data_processing_step [("AA", [RawSample.mk 1 ("imu") [0]])]
        [("BB", [RawSample.mk 2 ("ppg") [7]])] =
      no_data_processing_step [("AA", [RawSample.mk 1 ("imu") [0]])] other) :=
  no_data_processing_replaces [("AA", [RawSample.mk 1 ("imu") [0]])]
    [("BB", [RawSample.mk 2 ("ppg") [7]])] (by decide)

end SmartPatch
